import Mathlib

/-!
# MehDB — verification of the extendible-hashing core

A shallow embedding of the MehDB extendible-hash engine, translated from
the Rust source:

* `src/segment/bucket.rs` — records, buckets, `get` / `maybe_index_to_insert` / `put`;
* `src/directory.rs` — `MMapDirectory::grow_if_eq` (directory doubling);
* `src/meh.rs` — `MehDB::split_segment` (record redistribution and
  directory rewiring), `MehDB::get` error handling;
* `src/segment/segment.rs` and `src/segment/thread_safe_segmenter.rs` —
  the order of I/O operations performed by segment allocation.

Machine integers (`u64`, `u8`, `u32`) are modelled as `ℕ` with explicit
bounds (`hk < 2^64`) where the value range matters; fallible operations
return `Except`/`Option`.
-/

set_option maxHeartbeats 1000000

namespace MehDB

/-- A record: a `(hash_key, value)` pair of `u64`s (`bucket.rs`, `struct Record`). -/
structure Record where
  hash_key : Nat
  value : Nat
deriving DecidableEq, Repr

/-- The number of record slots in a bucket (`bucket.rs`, `BUCKET_RECORDS`). -/
def BUCKET_RECORDS : Nat := 16

/-- The all-zero record; byte-identical to an empty slot (`bucket.rs`). -/
def emptyRecord : Record := ⟨0, 0⟩

/-- A bucket's 16 slots, as the list of records its `iter()` yields in slot
order (`bucket.rs`, `Bucket::at` / `BucketIter`). -/
def emptyBucket : List Record := List.replicate BUCKET_RECORDS emptyRecord

/-- `normalize_key` from `bucket.rs`: the high `local_depth` bits of `hk`,
or `0` when `local_depth == 0`. -/
def normalize_key (hk local_depth : Nat) : Nat :=
  if local_depth = 0 then 0 else hk >>> (64 - local_depth)

/-- `Bucket::get` (`bucket.rs` lines 88–100): first record whose
`hash_key` equals `hk`. -/
def Bucket.get (b : List Record) (hk : Nat) : Option Record :=
  match b with
  | [] => none
  | r :: rest => if r.hash_key = hk then some r else Bucket.get rest hk

/-- The slot test applied by `Bucket::maybe_index_to_insert`
(`bucket.rs` lines 110–122): empty slot, exact hash collision, or the
normalized-key bitwise-AND test used for soft-deleted slots. -/
def insertable (hk local_depth : Nat) (r : Record) : Bool :=
  if r.hash_key = 0 ∧ r.value = 0 then true
  else if r.hash_key = hk then true
  else if normalize_key r.hash_key local_depth &&& normalize_key hk local_depth
      ≠ normalize_key hk local_depth then true
  else false

/-- Index of the first list element satisfying `p` (the `enumerate` scan
pattern of `maybe_index_to_insert`). -/
def findFirstIdx {α : Type} (p : α → Bool) : List α → Option Nat
  | [] => none
  | a :: rest => if p a then some 0 else (findFirstIdx p rest).map (· + 1)

/-- `Bucket::maybe_index_to_insert` (`bucket.rs` lines 104–125): index of
the first slot passing `insertable` (the `value` argument is unused in the
source as well). -/
def Bucket.maybe_index_to_insert (b : List Record) (hk _value local_depth : Nat) :
    Option Nat :=
  findFirstIdx (insertable hk local_depth) b

/-- `Bucket::put` (`bucket.rs` lines 131–154): find a slot via
`maybe_index_to_insert`; on `None` return `BucketFullError` leaving the
buffer untouched, otherwise overwrite that slot with `{hash_key, value}`
and return its index. The pair carries the result and the post-state. -/
def Bucket.put (b : List Record) (hk value local_depth : Nat) :
    Except Unit Nat × List Record :=
  match Bucket.maybe_index_to_insert b hk value local_depth with
  | none => (Except.error (), b)
  | some i => (Except.ok i, b.set i ⟨hk, value⟩)

/-- The slot-qualification rule as the SPEC words it (claim C1 rule 3:
"its high `local_depth` bits of `hash_key` do not match those of the
inserting key"). Stated for comparison against the source's
`insertable`; it is NOT what the code computes. -/
def specQualifies (hk local_depth : Nat) (r : Record) : Prop :=
  (r.hash_key = 0 ∧ r.value = 0) ∨ r.hash_key = hk ∨
    (1 ≤ local_depth ∧ r.hash_key >>> (64 - local_depth) ≠ hk >>> (64 - local_depth))

instance (hk local_depth : Nat) (r : Record) : Decidable (specQualifies hk local_depth r) := by
  unfold specQualifies; infer_instance

/-- Propositional restatement of the slot test the CODE performs
(`insertable`), with the `local_depth == 0` branch of `normalize_key`
unfolded: rule 3 fires only when `local_depth ≥ 1` and the high
`local_depth` bits of the inserting key are not a bitwise-AND subset of
the slot's. -/
def putSelects (hk local_depth : Nat) (r : Record) : Prop :=
  (r.hash_key = 0 ∧ r.value = 0) ∨ r.hash_key = hk ∨
    (1 ≤ local_depth ∧
      (r.hash_key >>> (64 - local_depth)) &&& (hk >>> (64 - local_depth))
        ≠ hk >>> (64 - local_depth))

instance (hk local_depth : Nat) (r : Record) : Decidable (putSelects hk local_depth r) := by
  unfold putSelects; infer_instance

/-- The sibling mask of the split (`meh.rs` line 200):
`mask = (hk >> (64 - new_depth)) | 1`. -/
def siblingMask (hk new_depth : Nat) : Nat :=
  (hk >>> (64 - new_depth)) ||| 1

/-- The per-bucket redistribution loop of `MehDB::split_segment`
(`meh.rs` lines 201–219): starting from `Bucket::new()`, `put` into the
new bucket every record of the old bucket whose top `new_depth` bits
equal the sibling mask; a `BucketFullError` from `put` propagates. -/
def split_bucket_records (hk new_depth : Nat) :
    List Record → List Record → Except Unit (List Record)
  | [], nb => Except.ok nb
  | r :: rest, nb =>
    if r.hash_key >>> (64 - new_depth) = siblingMask hk new_depth then
      match Bucket.put nb r.hash_key r.value new_depth with
      | (Except.ok _, nb') => split_bucket_records hk new_depth rest nb'
      | (Except.error e, _) => Except.error e
    else
      split_bucket_records hk new_depth rest nb

/-- The bucket the split builds for one old bucket (`meh.rs`:
`let mut new_bucket = Bucket::new(); for record in old_bucket.iter() ...`). -/
def build_split_bucket (old : List Record) (hk new_depth : Nat) :
    Except Unit (List Record) :=
  split_bucket_records hk new_depth old emptyBucket

/-- Directory state: `global_depth` byte plus the `2^global_depth` segment
indices of the table (`directory.rs`, `MMapDirectory` file layout). -/
structure Directory where
  global_depth : Nat
  table : List Nat
deriving DecidableEq, Repr

/-- The entry duplication performed by the directory grow loop
(`directory.rs` lines 274–283): each old entry is written exactly twice,
so `table'[2i] = table'[2i+1] = table[i]`. -/
def dup : List Nat → List Nat
  | [] => []
  | e :: rest => e :: e :: dup rest

/-- `MMapDirectory::grow_if_eq` (`directory.rs` lines 243–293): read the
global depth `g`; if `g > local_depth` return `g` with the mapping
untouched; otherwise write a new directory with depth byte `g + 1` and
every entry duplicated, and return `g + 1`. -/
def grow_if_eq (d : Directory) (local_depth : Nat) : Nat × Directory :=
  if d.global_depth > local_depth then (d.global_depth, d)
  else (d.global_depth + 1, ⟨d.global_depth + 1, dup d.table⟩)

/-- The directory-index computation (`directory.rs` `segment_index`,
`meh.rs`): `0` when the depth is `0` (guard against the overflowing
shift), else the top `global_depth` bits of the prefix word. -/
def dirIndex (global_depth hk : Nat) : Nat :=
  if global_depth = 0 then 0 else hk >>> (64 - global_depth)

/-- `start_dir_entry` of the rewiring loop (`meh.rs` lines 233–239): the
old segment's prefix (`0` when `local_depth == 0`, else
`hk >> (64 - local_depth)`) shifted left by
`global_depth - local_depth`, then aligned down to an even index
(`start_dir_entry -= start_dir_entry % 2`). -/
def rewireStart (hk local_depth global_depth : Nat) : Nat :=
  let s0 := (if local_depth = 0 then 0 else hk >>> (64 - local_depth))
      <<< (global_depth - local_depth)
  s0 - s0 % 2

/-- `step` of the rewiring loop (`meh.rs` line 232):
`step = 1 << (global_depth - new_depth)` with `new_depth = local_depth + 1`. -/
def rewireStep (local_depth global_depth : Nat) : Nat :=
  1 <<< (global_depth - (local_depth + 1))

/-- The directory-rewiring loop of `MehDB::split_segment`
(`meh.rs` lines 228–246): for `i ∈ [0, step)` set directory entry
`start_dir_entry + i + step` to the new segment's index. -/
def rewire (t : List Nat) (hk local_depth global_depth new_index : Nat) : List Nat :=
  (List.range (rewireStep local_depth global_depth)).foldl
    (fun acc i => acc.set
      (rewireStart hk local_depth global_depth + i + rewireStep local_depth global_depth)
      new_index) t

/-- The directory-level state of the engine: global depth, directory
table, and the local depth of each allocated segment (segment `i`'s depth
is `segDepths[i]`; `segDepths.length` is `num_segments`). Bucket contents
are irrelevant to the directory invariant and are not tracked. -/
structure DirState where
  gd : Nat
  table : List Nat
  segDepths : List Nat
deriving DecidableEq, Repr

/-- The state after a fresh open (`BasicSegmenter::init` allocates
segment 0 with depth 0; `MMapDirectory::init` starts with depth 0 and a
single entry 0). -/
def initialState : DirState := ⟨0, [0], [0]⟩

/-- The local depth of the segment a split triggered by prefix word `hk`
operates on: the depth of the segment the directory currently maps `hk`
to (`meh.rs` `split_segment` receives that segment). -/
def splitTargetDepth (s : DirState) (hk : Nat) : Nat :=
  s.segDepths.getD (s.table.getD (dirIndex s.gd hk) 0) 0

/-- One `MehDB::split_segment` call (`meh.rs` lines 183–254) projected to
directory state: `grow_if_eq(ld)`, allocate a new segment with depth
`ld + 1` at index `num_segments`, rewire the upper half of the old
segment's directory run to it, and bump the old segment's depth. -/
def splitStep (s : DirState) (hk : Nat) : DirState :=
  let segIdx := s.table.getD (dirIndex s.gd hk) 0
  let ld := s.segDepths.getD segIdx 0
  let grown := (grow_if_eq ⟨s.gd, s.table⟩ ld).2
  let newIdx := s.segDepths.length
  let rewired := rewire grown.table hk ld grown.global_depth newIdx
  ⟨grown.global_depth, rewired, (s.segDepths.set segIdx (ld + 1)) ++ [ld + 1]⟩

/-- States reachable from a fresh database by put operations: successful
bucket puts leave the directory state unchanged, so the reachable
directory states are exactly the closure of the initial state under
splits. A split requires its prefix word to be a `u64` and its target
segment's depth to be at most 63 (the source shifts a `u64` by
`64 - (ld + 1)`). -/
inductive Reachable : DirState → Prop
  | init : Reachable initialState
  | split (s : DirState) (hk : Nat) (hhk : hk < 2 ^ 64)
      (hld : splitTargetDepth s hk ≤ 63) :
      Reachable s → Reachable (splitStep s hk)

/-- The claim-C5 / P3 invariant, in its inductive strengthening: the
table has `2^gd` in-range entries; every allocated segment `i` of depth
`ld_i ≤ gd` owns the directory entries whose index has high `ld_i` bits
equal to a fixed prefix `p_i < 2^ld_i` — a contiguous, aligned run of
length `2^(gd - ld_i)`. -/
def Inv (s : DirState) : Prop :=
  s.table.length = 2 ^ s.gd ∧ s.gd ≤ 64 ∧ 0 < s.segDepths.length ∧
  (∀ j, j < 2 ^ s.gd → s.table.getD j 0 < s.segDepths.length) ∧
  ∀ i, i < s.segDepths.length →
    s.segDepths.getD i 0 ≤ s.gd ∧
    ∃ p, p < 2 ^ s.segDepths.getD i 0 ∧
      ∀ j, j < 2 ^ s.gd →
        (s.table.getD j 0 = i ↔ j / 2 ^ (s.gd - s.segDepths.getD i 0) = p)

/-- A bucket whose slot 0 holds a record whose top bit (at `local_depth`
1) is 1, all other slots empty. -/
def c1cexBucket : List Record := ⟨2 ^ 63, 1⟩ :: List.replicate 15 emptyRecord

/-- A bucket whose 16 slots all hold the record `{hash_key: 2^63, value: 1}`. -/
def c6cexBucket : List Record := List.replicate 16 (⟨2 ^ 63, 1⟩ : Record)

/-- A bucket whose 16 slots all hold the record `{hash_key: 1, value: 1}`. -/
def c7cexBucket : List Record := List.replicate 16 (⟨1, 1⟩ : Record)

/-- A bucket with three live records, two of which have prefix bit 1. -/
def c2witnessBucket : List Record :=
  [⟨2 ^ 63 + 5, 10⟩, ⟨7, 11⟩, ⟨2 ^ 63 + 9, 12⟩] ++ List.replicate 13 emptyRecord

/-- The I/O operations a segment allocation performs, in program order. -/
inductive AllocEvent
  | bodyWrite
  | bodyFlush
  | counterInc
  | headerWrite
  | headerFlush
deriving DecidableEq, Repr, BEq

/-- `BasicSegmenter::allocate_segment` (`segment.rs` lines 180–204):
`write_all` of the zero-filled body with its depth byte, `flush`, then
`num_segments.fetch_add(1)` and `write_num_segments` (header write +
flush). -/
def basicAllocateSegmentTrace : List AllocEvent :=
  [.bodyWrite, .bodyFlush, .counterInc, .headerWrite, .headerFlush]

/-- `BasicSegmenter::allocate_with_buckets` (`segment.rs` lines 206–247):
depth byte and 64 buckets through a `BufWriter`, `flush`, then
`fetch_add` and `write_num_segments`. -/
def basicAllocateWithBucketsTrace : List AllocEvent :=
  [.bodyWrite, .bodyFlush, .counterInc, .headerWrite, .headerFlush]

/-- `LockedSegmenter::allocate_segment`
(`thread_safe_segmenter.rs` lines 152–181): `inc_num_segments` FIRST —
which does `fetch_add`, writes the new count into the header and flushes
it (lines 112–121) — and only then writes and flushes the segment body. -/
def lockedAllocateSegmentTrace : List AllocEvent :=
  [.counterInc, .headerWrite, .headerFlush, .bodyWrite, .bodyFlush]

/-- `LockedSegmenter::allocate_with_buckets`
(`thread_safe_segmenter.rs` lines 183–220): same order —
`inc_num_segments` first, segment body afterwards. -/
def lockedAllocateWithBucketsTrace : List AllocEvent :=
  [.counterInc, .headerWrite, .headerFlush, .bodyWrite, .bodyFlush]

/-- Position of the first occurrence of event `e` in a trace. -/
def eventIndex (tr : List AllocEvent) (e : AllocEvent) : Option Nat :=
  findFirstIdx (fun x => x == e) tr

/-- The error taxonomy relevant to `get` (everything except the internal
bucket-full signal, which `put` alone consumes). -/
inductive EngineError
  | ioError
  | corruption
  | lockPoisoned
deriving DecidableEq, Repr

/-- `MehDB::bucket_for_key` (`meh.rs` lines 39–82), abstracted over its
three fallible steps: directory lookup, segment read, bucket read. Each
step uses `?`, so the first error propagates. -/
def bucket_for_key (dirRes : Except EngineError Nat)
    (segRes : Nat → Except EngineError Nat)
    (bucketRes : Nat → Except EngineError (List Record)) :
    Except EngineError (List Record) := do
  let segIdx ← dirRes
  let seg ← segRes segIdx
  bucketRes seg

/-- `MehDB::get` (`meh.rs` lines 165–181): hash the key, call
`bucket_for_key`, and on `Err(_)` return `None`; on success scan the
bucket. -/
def get (dirRes : Except EngineError Nat)
    (segRes : Nat → Except EngineError Nat)
    (bucketRes : Nat → Except EngineError (List Record)) (hk : Nat) :
    Option Record :=
  match bucket_for_key dirRes segRes bucketRes with
  | Except.error _ => none
  | Except.ok b => Bucket.get b hk

/-! ## Generic list lemmas -/

theorem set_getD {α : Type} (l : List α) (i j : Nat) (a d : α) :
    (l.set i a).getD j d = if i = j ∧ j < l.length then a else l.getD j d := by
  induction l generalizing i j with
  | nil => simp
  | cons x xs ih =>
    cases i with
    | zero =>
      cases j with
      | zero => simp
      | succ j => simp
    | succ i =>
      cases j with
      | zero => simp
      | succ j =>
        simp only [List.set_cons_succ, List.getD_cons_succ, List.length_cons]
        rw [ih i j]
        simp [Nat.succ_lt_succ_iff]

theorem getD_mem {α : Type} (l : List α) (j : Nat) (d : α) (h : j < l.length) :
    l.getD j d ∈ l := by
  induction l generalizing j with
  | nil => simp at h
  | cons x xs ih =>
    cases j with
    | zero => simp
    | succ j =>
      simp only [List.getD_cons_succ]
      exact List.mem_cons_of_mem _ (ih j (by simpa using h))

theorem findFirstIdx_none_iff {α : Type} (p : α → Bool) (l : List α) :
    findFirstIdx p l = none ↔ ∀ a ∈ l, p a = false := by
  induction l with
  | nil => simp [findFirstIdx]
  | cons x xs ih =>
    have hdef : findFirstIdx p (x :: xs)
        = if p x then some 0 else (findFirstIdx p xs).map (· + 1) := rfl
    rw [hdef]
    by_cases hx : p x = true
    · rw [if_pos hx]
      constructor
      · intro hc; exact absurd hc (by simp)
      · intro hall
        exact absurd hx (by simp [hall x (List.mem_cons_self x xs)])
    · have hx' : p x = false := by simpa using hx
      rw [if_neg hx]
      cases hfix : findFirstIdx p xs with
      | none =>
        simp only [Option.map_none']
        simp only [hfix, true_iff] at ih
        constructor
        · intro _ a ha
          rcases List.mem_cons.mp ha with rfl | ha'
          · exact hx'
          · exact ih a ha'
        · intro _; trivial
      | some k =>
        simp only [Option.map_some']
        constructor
        · intro hc; exact absurd hc (by simp)
        · intro hall
          have hn := ih.mpr (fun a ha => hall a (List.mem_cons_of_mem _ ha))
          simp [hfix] at hn

theorem findFirstIdx_some_spec {α : Type} (p : α → Bool) (d : α) :
    ∀ (l : List α) (i : Nat), findFirstIdx p l = some i →
      i < l.length ∧ p (l.getD i d) = true ∧ ∀ j, j < i → p (l.getD j d) = false := by
  intro l
  induction l with
  | nil => intro i h; simp [findFirstIdx] at h
  | cons x xs ih =>
    intro i h
    by_cases hx : p x
    · simp [findFirstIdx, hx] at h
      subst h
      exact ⟨by simp, by simpa using hx, fun j hj => absurd hj (by omega)⟩
    · cases h' : findFirstIdx p xs with
      | none => simp [findFirstIdx, hx, h'] at h
      | some k =>
        simp [findFirstIdx, hx, h'] at h
        subst h
        obtain ⟨hk1, hk2, hk3⟩ := ih k h'
        refine ⟨by simpa using Nat.succ_lt_succ hk1, by simpa using hk2, ?_⟩
        intro j hj
        cases j with
        | zero => simpa using hx
        | succ j => simpa using hk3 j (by omega)

theorem findFirstIdx_eq_some_of {α : Type} (p : α → Bool) (d : α) :
    ∀ (l : List α) (i : Nat), i < l.length → p (l.getD i d) = true →
      (∀ j, j < i → p (l.getD j d) = false) → findFirstIdx p l = some i := by
  intro l
  induction l with
  | nil => intro i h; simp at h
  | cons x xs ih =>
    intro i hi hp hprev
    cases i with
    | zero => simp only [List.getD_cons_zero] at hp; simp [findFirstIdx, hp]
    | succ i =>
      have hx : p x = false := by simpa using hprev 0 (by omega)
      have hrec : findFirstIdx p xs = some i := by
        refine ih i (by simpa using hi) (by simpa using hp) ?_
        intro j hj
        simpa using hprev (j + 1) (by omega)
      simp [findFirstIdx, hx, hrec]

/-! ## The bucket slot test: code vs proposition -/

theorem insertable_iff (hk ld : Nat) (r : Record) :
    insertable hk ld r = true ↔ putSelects hk ld r := by
  unfold insertable putSelects normalize_key
  by_cases hld : ld = 0
  · subst hld
    simp only [if_pos rfl]
    split_ifs with h1 h2 h3
    · simp [h1]
    · simp [h2]
    · simp at h3
    · simp only [Bool.false_eq_true, false_iff]
      rintro (h | h | ⟨h, -⟩)
      · exact h1 h
      · exact h2 h
      · omega
  · simp only [if_neg hld]
    split_ifs with h1 h2 h3
    · simp [h1]
    · simp [h2]
    · simp only [true_iff]
      exact Or.inr (Or.inr ⟨by omega, h3⟩)
    · simp only [Bool.false_eq_true, false_iff]
      push_neg at h3
      rintro (h | h | ⟨-, h⟩)
      · exact h1 h
      · exact h2 h
      · exact h h3

theorem bucket_get_eq_of (hk : Nat) (d : Record) :
    ∀ (l : List Record) (i : Nat), i < l.length → (l.getD i d).hash_key = hk →
      (∀ j, j < i → (l.getD j d).hash_key ≠ hk) →
      Bucket.get l hk = some (l.getD i d) := by
  intro l
  induction l with
  | nil => intro i h; simp at h
  | cons x xs ih =>
    intro i hi hp hprev
    cases i with
    | zero =>
      simp only [List.getD_cons_zero] at hp ⊢
      simp [Bucket.get, hp]
    | succ i =>
      have hx : x.hash_key ≠ hk := by simpa using hprev 0 (by omega)
      simp only [List.getD_cons_succ] at hp ⊢
      rw [Bucket.get, if_neg hx]
      refine ih i (by simpa using hi) hp ?_
      intro j hj
      simpa using hprev (j + 1) (by omega)

/-! ## C1 — bucket insertion slot policy -/

/-- C1 (counterexample): at local depth 1, slot 0 of `c1cexBucket` holds
`{hash_key: 2^63, value: 1}` (high bit 1) and the inserting key `hk = 1`
has high bit 0, so slot 0 qualifies under the claim's rule 3 (the high
`local_depth` bits differ) and the claim's first qualifying slot is 0 —
yet `Bucket::put` skips it and inserts at the empty slot 1. -/
theorem c1_put_counterexample :
    specQualifies 1 1 (c1cexBucket.getD 0 emptyRecord) ∧
    (Bucket.put c1cexBucket 1 5 1).1 = Except.ok 1 := by
  exact ⟨by decide, rfl⟩

/-- C1 (amended): `Bucket::put(hk, v, ld)` writes the record into the
first slot `i` in order 0..15 such that (1) slot `i` is empty, (2) slot
`i`'s `hash_key` equals `hk`, or (3) `ld ≥ 1` and the high `ld` bits of
`hk` are not a bitwise-AND subset of the high `ld` bits of slot `i`'s
`hash_key` (the code reuses a slot only when
`slot.high_bits & key.high_bits ≠ key.high_bits`, not whenever they
differ), and returns that index; when `ld = 0` rule (3) never selects a
slot. -/
theorem c1_put_first_qualifying_slot (b : List Record) (hk v ld : Nat)
    (hex : ∃ i, i < b.length ∧ putSelects hk ld (b.getD i emptyRecord)) :
    ∃ i, (Bucket.put b hk v ld).1 = Except.ok i ∧
      (Bucket.put b hk v ld).2 = b.set i ⟨hk, v⟩ ∧
      i < b.length ∧ putSelects hk ld (b.getD i emptyRecord) ∧
      ∀ j, j < i → ¬ putSelects hk ld (b.getD j emptyRecord) := by
  obtain ⟨i0, hi0, hq0⟩ := hex
  have hne : findFirstIdx (insertable hk ld) b ≠ none := by
    intro hnone
    have hall := (findFirstIdx_none_iff (insertable hk ld) b).mp hnone
    have hfalse := hall (b.getD i0 emptyRecord) (getD_mem b i0 emptyRecord hi0)
    have htrue := (insertable_iff hk ld _).mpr hq0
    rw [htrue] at hfalse
    exact absurd hfalse (by decide)
  cases hfix : findFirstIdx (insertable hk ld) b with
  | none => exact absurd hfix hne
  | some i =>
    obtain ⟨hilen, hpi, hprev⟩ := findFirstIdx_some_spec (insertable hk ld) emptyRecord b i hfix
    refine ⟨i, ?_, ?_, hilen, (insertable_iff hk ld _).mp hpi, ?_⟩
    · simp [Bucket.put, Bucket.maybe_index_to_insert, hfix]
    · simp [Bucket.put, Bucket.maybe_index_to_insert, hfix]
    · intro j hj hq
      have hfalse := hprev j hj
      have htrue := (insertable_iff hk ld _).mpr hq
      rw [htrue] at hfalse
      exact absurd hfalse (by decide)

/-- C1 (witness): on a fresh zeroed bucket, inserting `hk = 5` lands in
slot 0, the first empty slot. -/
theorem c1_put_first_qualifying_slot_witness :
    ∃ i, (Bucket.put emptyBucket 5 7 0).1 = Except.ok i ∧
      (Bucket.put emptyBucket 5 7 0).2 = emptyBucket.set i ⟨5, 7⟩ ∧
      i < emptyBucket.length ∧ putSelects 5 0 (emptyBucket.getD i emptyRecord) ∧
      ∀ j, j < i → ¬ putSelects 5 0 (emptyBucket.getD j emptyRecord) :=
  c1_put_first_qualifying_slot emptyBucket 5 7 0 ⟨0, by decide, by decide⟩

/-! ## C6 — bucket overflow signalling and atomicity -/

/-- C6 (counterexample): every slot of `c6cexBucket` differs from
`hk = 1` in its high bit at depth 1, so under the claim's rule 3 every
slot qualifies as soft-deleted and `put` should not signal `Full` — yet
the code returns the `Full` error. -/
theorem c6_put_counterexample :
    (Bucket.put c6cexBucket 1 5 1).1 = Except.error () ∧
    specQualifies 1 1 (c6cexBucket.getD 0 emptyRecord) := by
  exact ⟨rfl, by decide⟩

/-- C6 (amended): `Bucket::put(hk, v, ld)` returns the `Full` error iff
no slot is empty, holds `hk`, or passes the code's soft-delete test
(rule 3 amended as in C1: the high `ld` bits of `hk` are not a
bitwise-AND subset of the slot's); and on `Full` the bucket is left
unchanged. -/
theorem c6_full_iff_no_reusable_slot (b : List Record) (hk v ld : Nat)
    (hlen : b.length = BUCKET_RECORDS) :
    ((Bucket.put b hk v ld).1 = Except.error () ↔
      ∀ j, j < BUCKET_RECORDS → ¬ putSelects hk ld (b.getD j emptyRecord)) ∧
    ((Bucket.put b hk v ld).1 = Except.error () → (Bucket.put b hk v ld).2 = b) := by
  cases hfix : findFirstIdx (insertable hk ld) b with
  | none =>
    have hall := (findFirstIdx_none_iff (insertable hk ld) b).mp hfix
    constructor
    · simp only [Bucket.put, Bucket.maybe_index_to_insert, hfix]
      refine ⟨fun _ j hj hq => ?_, fun _ => trivial⟩
      have hfalse := hall (b.getD j emptyRecord) (getD_mem b j emptyRecord (by omega))
      have htrue := (insertable_iff hk ld _).mpr hq
      rw [htrue] at hfalse
      exact absurd hfalse (by decide)
    · intro _
      simp [Bucket.put, Bucket.maybe_index_to_insert, hfix]
  | some i =>
    obtain ⟨hilen, hpi, _⟩ := findFirstIdx_some_spec (insertable hk ld) emptyRecord b i hfix
    constructor
    · simp only [Bucket.put, Bucket.maybe_index_to_insert, hfix]
      constructor
      · intro hc; cases hc
      · intro hall
        exact absurd ((insertable_iff hk ld _).mp hpi) (hall i (by omega))
    · intro hc
      simp [Bucket.put, Bucket.maybe_index_to_insert, hfix] at hc

/-- C6 (witness): instantiation on a bucket with one live record and 15
empty slots; `put` does not signal `Full` because slot 1 is empty. -/
theorem c6_full_iff_no_reusable_slot_witness :
    ((Bucket.put c1cexBucket 9 2 0).1 = Except.error () ↔
      ∀ j, j < BUCKET_RECORDS → ¬ putSelects 9 0 (c1cexBucket.getD j emptyRecord)) ∧
    ((Bucket.put c1cexBucket 9 2 0).1 = Except.error () →
      (Bucket.put c1cexBucket 9 2 0).2 = c1cexBucket) :=
  c6_full_iff_no_reusable_slot c1cexBucket 9 2 0 (by decide)

/-! ## C7 — idempotent re-put -/

/-- C7 (counterexample): on a bucket whose 16 slots all hold the
still-owned record `{hash_key: 1, value: 1}`, `put(2, 3, 0)` (with
`hk = 2 ≠ 0`) does not succeed — it returns `Full` — so the claim's
unconditional "performing put twice in succession succeeds" is false. -/
theorem c7_put_counterexample :
    (2 : Nat) ≠ 0 ∧ (Bucket.put c7cexBucket 2 3 0).1 = Except.error () := by
  exact ⟨by decide, rfl⟩

/-- C7 (amended): if the first `put(hk, v, ld)` (with `hk ≠ 0`) succeeds
at slot `i` and no other slot holds `hash_key = hk` beforehand, then the
second identical `put` succeeds at the same slot `i` and leaves the
bucket unchanged, exactly one slot (namely `i`) holds `hash_key = hk`,
and `get(hk)` returns the record `{hash_key: hk, value: v}`. -/
theorem c7_idempotent_reput (b : List Record) (hk v ld i : Nat)
    (hlen : b.length = BUCKET_RECORDS) (_hhk : hk ≠ 0)
    (hput : (Bucket.put b hk v ld).1 = Except.ok i)
    (honly : ∀ j, j < BUCKET_RECORDS → (b.getD j emptyRecord).hash_key = hk → j = i) :
    (Bucket.put (Bucket.put b hk v ld).2 hk v ld).1 = Except.ok i ∧
    (Bucket.put (Bucket.put b hk v ld).2 hk v ld).2 = (Bucket.put b hk v ld).2 ∧
    (∀ j, j < BUCKET_RECORDS →
      (((Bucket.put b hk v ld).2.getD j emptyRecord).hash_key = hk ↔ j = i)) ∧
    Bucket.get (Bucket.put b hk v ld).2 hk = some ⟨hk, v⟩ := by
  cases hfix : findFirstIdx (insertable hk ld) b with
  | none => simp [Bucket.put, Bucket.maybe_index_to_insert, hfix] at hput
  | some i' =>
    have hii : i' = i := by
      simp [Bucket.put, Bucket.maybe_index_to_insert, hfix] at hput
      exact hput
    subst hii
    obtain ⟨hilen, hpi, hprev⟩ := findFirstIdx_some_spec (insertable hk ld) emptyRecord b i' hfix
    have hb1 : (Bucket.put b hk v ld).2 = b.set i' ⟨hk, v⟩ := by
      simp [Bucket.put, Bucket.maybe_index_to_insert, hfix]
    have hb1len : (b.set i' ⟨hk, v⟩).length = b.length := List.length_set b i' _
    have hgetD_i : (b.set i' ⟨hk, v⟩).getD i' emptyRecord = ⟨hk, v⟩ := by
      rw [set_getD]; simp [hilen]
    have hgetD_ne : ∀ j, j ≠ i' → (b.set i' ⟨hk, v⟩).getD j emptyRecord
        = b.getD j emptyRecord := by
      intro j hj
      rw [set_getD, if_neg (by rintro ⟨h1, -⟩; exact hj h1.symm)]
    have hfix2 : findFirstIdx (insertable hk ld) (b.set i' ⟨hk, v⟩) = some i' := by
      refine findFirstIdx_eq_some_of (insertable hk ld) emptyRecord _ i'
        (by omega) ?_ ?_
      · rw [hgetD_i]
        exact (insertable_iff hk ld _).mpr (Or.inr (Or.inl rfl))
      · intro j hj
        rw [hgetD_ne j (by omega)]
        exact hprev j hj
    refine ⟨?_, ?_, ?_, ?_⟩
    · rw [hb1]
      simp [Bucket.put, Bucket.maybe_index_to_insert, hfix2]
    · rw [hb1]
      simp [Bucket.put, Bucket.maybe_index_to_insert, hfix2, List.set_set]
    · intro j hj
      rw [hb1]
      constructor
      · intro hjhk
        by_contra hne
        have := hgetD_ne j hne
        rw [this] at hjhk
        exact hne (honly j hj hjhk)
      · intro hje
        subst hje
        rw [hgetD_i]
    · rw [hb1]
      have := bucket_get_eq_of hk emptyRecord (b.set i' ⟨hk, v⟩) i'
        (by omega) (by rw [hgetD_i]) ?_
      · rw [hgetD_i] at this
        exact this
      · intro j hj
        rw [hgetD_ne j (by omega)]
        intro hjhk
        have hji : j = i' := honly j (by omega) hjhk
        omega

/-- C7 (witness): a fresh bucket, `hk = 5`, `v = 7`, `ld = 0`; the first
put lands in slot 0 and the amended claim's conclusions hold there. -/
theorem c7_idempotent_reput_witness :
    (Bucket.put (Bucket.put emptyBucket 5 7 0).2 5 7 0).1 = Except.ok 0 ∧
    (Bucket.put (Bucket.put emptyBucket 5 7 0).2 5 7 0).2 = (Bucket.put emptyBucket 5 7 0).2 ∧
    (∀ j, j < BUCKET_RECORDS →
      (((Bucket.put emptyBucket 5 7 0).2.getD j emptyRecord).hash_key = 5 ↔ j = 0)) ∧
    Bucket.get (Bucket.put emptyBucket 5 7 0).2 5 = some ⟨5, 7⟩ :=
  c7_idempotent_reput emptyBucket 5 7 0 0 (by decide) (by decide) rfl (by decide)

/-! ## C10 — zero-hash-key ambiguity -/

/-- C10 (confirmed): an empty slot is byte-identical to the record
`{hash_key: 0, value: 0}`; in any bucket that has an all-zero slot before
any other slot whose `hash_key` is 0, `Bucket::get(0)` returns that
all-zero record (`Some {0, 0}`, not `None`), so a lookup whose prefix
word is 0 cannot distinguish an inserted value 0 from an empty slot. -/
theorem c10_get_zero_returns_empty (b : List Record) (i : Nat)
    (hi : i < b.length) (hz : b.getD i emptyRecord = emptyRecord)
    (hpre : ∀ j, j < i → (b.getD j emptyRecord).hash_key ≠ 0) :
    Bucket.get b 0 = some emptyRecord := by
  have h := bucket_get_eq_of 0 emptyRecord b i hi (by rw [hz]; rfl) hpre
  rw [hz] at h
  exact h

/-- C10 (witness): on a freshly allocated, fully zeroed bucket,
`get(0)` returns `Some {hash_key: 0, value: 0}`. -/
theorem c10_get_zero_returns_empty_witness :
    Bucket.get emptyBucket 0 = some emptyRecord :=
  c10_get_zero_returns_empty emptyBucket 0 (by decide) (by decide)
    (fun j hj => absurd hj (by omega))

/-! ## C2 — split redistribution -/

theorem siblingMask_mod_two (hk nd : Nat) : siblingMask hk nd % 2 = 1 := by
  unfold siblingMask
  rw [Nat.mod_two_eq_one_iff_testBit_zero, Nat.testBit_lor]
  simp

theorem siblingMask_ne_zero (hk nd : Nat) : siblingMask hk nd ≠ 0 := by
  have := siblingMask_mod_two hk nd
  omega

theorem insertable_empty (h nd : Nat) : insertable h nd emptyRecord = true := by
  unfold insertable emptyRecord
  rw [if_pos ⟨rfl, rfl⟩]

theorem insertable_false_of_same_prefix (hk h nd : Nat) (r : Record) (hnd : 1 ≤ nd)
    (hr : r.hash_key >>> (64 - nd) = siblingMask hk nd)
    (hh : h >>> (64 - nd) = siblingMask hk nd)
    (hne : r.hash_key ≠ h) :
    insertable h nd r = false := by
  have hrz : r.hash_key ≠ 0 := by
    intro hz
    rw [hz, Nat.zero_shiftRight] at hr
    exact siblingMask_ne_zero hk nd hr.symm
  have hnd0 : nd ≠ 0 := by omega
  have heq : normalize_key r.hash_key nd &&& normalize_key h nd = normalize_key h nd := by
    unfold normalize_key
    rw [if_neg hnd0, if_neg hnd0, hr, hh, Nat.and_self]
  unfold insertable
  rw [if_neg (by rintro ⟨h1, -⟩; exact hrz h1), if_neg hne, if_neg (fun hc => hc heq)]

theorem set_append_at_length {α : Type} (l1 l2 : List α) (a : α) :
    (l1 ++ l2).set l1.length a = l1 ++ l2.set 0 a := by
  induction l1 with
  | nil => rfl
  | cons x xs ih => simp only [List.cons_append, List.length_cons, List.set_cons_succ, ih]

theorem put_into_padded (m : List Record) (k h v nd : Nat) (hk1 : 1 ≤ k)
    (hfalse : ∀ r ∈ m, insertable h nd r = false) :
    Bucket.put (m ++ List.replicate k emptyRecord) h v nd
      = (Except.ok m.length, m ++ ⟨h, v⟩ :: List.replicate (k - 1) emptyRecord) := by
  obtain ⟨k', rfl⟩ : ∃ k', k = k' + 1 := ⟨k - 1, by omega⟩
  have hfix : findFirstIdx (insertable h nd) (m ++ List.replicate (k' + 1) emptyRecord)
      = some m.length := by
    apply findFirstIdx_eq_some_of (insertable h nd) emptyRecord
    · rw [List.length_append, List.length_replicate]
      omega
    · rw [List.getD_append_right m _ emptyRecord m.length (le_refl _), Nat.sub_self,
        List.replicate_succ, List.getD_cons_zero]
      exact insertable_empty h nd
    · intro j hj
      rw [List.getD_append m _ emptyRecord j hj]
      exact hfalse (m.getD j emptyRecord) (getD_mem m j emptyRecord hj)
  simp only [Bucket.put, Bucket.maybe_index_to_insert, hfix]
  rw [set_append_at_length, List.replicate_succ, List.set_cons_zero, Nat.add_sub_cancel]

theorem split_records_spec (hk nd : Nat) (hnd : 1 ≤ nd) :
    ∀ (rest m : List Record),
      (∀ r ∈ m, r.hash_key >>> (64 - nd) = siblingMask hk nd) →
      (∀ r1 ∈ m, ∀ r2 ∈ rest, r2.hash_key >>> (64 - nd) = siblingMask hk nd →
        r1.hash_key ≠ r2.hash_key) →
      (rest.filter (fun r => r.hash_key >>> (64 - nd) == siblingMask hk nd)).Pairwise
        (fun a b => a.hash_key ≠ b.hash_key) →
      m.length + (rest.filter
        (fun r => r.hash_key >>> (64 - nd) == siblingMask hk nd)).length ≤ BUCKET_RECORDS →
      split_bucket_records hk nd rest
          (m ++ List.replicate (BUCKET_RECORDS - m.length) emptyRecord)
        = Except.ok
          ((m ++ rest.filter (fun r => r.hash_key >>> (64 - nd) == siblingMask hk nd))
            ++ List.replicate
              (BUCKET_RECORDS - m.length
                - (rest.filter
                  (fun r => r.hash_key >>> (64 - nd) == siblingMask hk nd)).length)
              emptyRecord) := by
  intro rest
  induction rest with
  | nil =>
    intro m hm hdisj hpw hbud
    simp [split_bucket_records]
  | cons r rest ih =>
    intro m hm hdisj hpw hbud
    by_cases hr : r.hash_key >>> (64 - nd) = siblingMask hk nd
    · have hfilter : (r :: rest).filter
          (fun r => r.hash_key >>> (64 - nd) == siblingMask hk nd)
          = r :: rest.filter (fun r => r.hash_key >>> (64 - nd) == siblingMask hk nd) :=
        List.filter_cons_of_pos (by simpa using hr)
      rw [hfilter] at hbud hpw ⊢
      rw [List.length_cons] at hbud
      have hk1 : 1 ≤ BUCKET_RECORDS - m.length := by omega
      have hput := put_into_padded m (BUCKET_RECORDS - m.length) r.hash_key r.value nd hk1
        (fun r' hr' => insertable_false_of_same_prefix hk r.hash_key nd r' hnd
          (hm r' hr') hr (hdisj r' hr' r (List.mem_cons_self r rest) hr))
      have hstep : split_bucket_records hk nd (r :: rest)
          (m ++ List.replicate (BUCKET_RECORDS - m.length) emptyRecord)
          = split_bucket_records hk nd rest
            (m ++ (⟨r.hash_key, r.value⟩ : Record)
              :: List.replicate (BUCKET_RECORDS - m.length - 1) emptyRecord) := by
        simp only [split_bucket_records, if_pos hr, hput]
      rw [hstep]
      have heta : (⟨r.hash_key, r.value⟩ : Record) = r := rfl
      rw [heta, List.append_cons]
      have hlen1 : BUCKET_RECORDS - m.length - 1 = BUCKET_RECORDS - (m ++ [r]).length := by
        rw [List.length_append, List.length_singleton]
        omega
      rw [hlen1]
      have hrec := ih (m ++ [r])
        (by
          intro r' hr'
          rcases List.mem_append.mp hr' with h1 | h1
          · exact hm r' h1
          · rw [List.mem_singleton.mp h1]
            exact hr)
        (by
          intro r1 h1 r2 h2 hmask
          rcases List.mem_append.mp h1 with h1' | h1'
          · exact hdisj r1 h1' r2 (List.mem_cons_of_mem r h2) hmask
          · rw [List.mem_singleton.mp h1']
            have hr2f : r2 ∈ rest.filter
                (fun r => r.hash_key >>> (64 - nd) == siblingMask hk nd) :=
              List.mem_filter.mpr ⟨h2, by simpa using hmask⟩
            exact (List.pairwise_cons.mp hpw).1 r2 hr2f)
        (List.pairwise_cons.mp hpw).2
        (by
          rw [List.length_append, List.length_singleton]
          omega)
      rw [hrec]
      have hcnt : BUCKET_RECORDS - (m ++ [r]).length
            - (rest.filter
              (fun r => r.hash_key >>> (64 - nd) == siblingMask hk nd)).length
          = BUCKET_RECORDS - m.length
            - ((rest.filter
              (fun r => r.hash_key >>> (64 - nd) == siblingMask hk nd)).length + 1) := by
        rw [List.length_append, List.length_singleton]
        omega
      rw [hcnt, ← List.append_cons, List.length_cons]
    · have hfilter : (r :: rest).filter
          (fun r => r.hash_key >>> (64 - nd) == siblingMask hk nd)
          = rest.filter (fun r => r.hash_key >>> (64 - nd) == siblingMask hk nd) :=
        List.filter_cons_of_neg (by simpa using hr)
      rw [hfilter] at hbud hpw ⊢
      have hstep : split_bucket_records hk nd (r :: rest)
          (m ++ List.replicate (BUCKET_RECORDS - m.length) emptyRecord)
          = split_bucket_records hk nd rest
            (m ++ List.replicate (BUCKET_RECORDS - m.length) emptyRecord) := by
        simp only [split_bucket_records, if_neg hr]
      rw [hstep]
      exact ih m hm
        (fun r1 h1 r2 h2 hmask => hdisj r1 h1 r2 (List.mem_cons_of_mem r h2) hmask)
        hpw hbud

/-- C2 (confirmed): the split's per-bucket loop copies into new bucket
`k` exactly those records of old bucket `k` whose top `nd` bits equal
the sibling mask `(hk >> (64 - nd)) | 1`; live records whose new
discriminating bit is 0 are never copied (they are left in place — the
loop does not modify the old bucket). Stated for old buckets whose
mask-matching records carry pairwise distinct hash keys. -/
theorem c2_split_redistribution (old : List Record) (hk ld : Nat)
    (hlen : old.length = BUCKET_RECORDS) (hld : ld + 1 ≤ 64)
    (hdist : (old.filter
      (fun r => r.hash_key >>> (64 - (ld + 1)) == siblingMask hk (ld + 1))).Pairwise
      (fun a b => a.hash_key ≠ b.hash_key)) :
    ∃ nb, build_split_bucket old hk (ld + 1) = Except.ok nb ∧
      (∀ r ∈ old, r ≠ emptyRecord →
        (r ∈ nb ↔ r.hash_key >>> (64 - (ld + 1)) = siblingMask hk (ld + 1))) ∧
      (∀ r ∈ old, r ≠ emptyRecord →
        (r.hash_key >>> (64 - (ld + 1))) % 2 = 0 → r ∉ nb) := by
  have hbud : (0 : Nat) + (old.filter
      (fun r => r.hash_key >>> (64 - (ld + 1)) == siblingMask hk (ld + 1))).length
      ≤ BUCKET_RECORDS := by
    have hle := List.length_filter_le
      (fun r => r.hash_key >>> (64 - (ld + 1)) == siblingMask hk (ld + 1)) old
    omega
  have hspec := split_records_spec hk (ld + 1) (by omega) old []
    (by intro r hr; simp at hr)
    (by intro r1 h1; simp at h1)
    hdist hbud
  simp only [List.nil_append, List.length_nil, Nat.sub_zero] at hspec
  refine ⟨_, hspec, ?_, ?_⟩
  · intro r hrold hrne
    constructor
    · intro hrnb
      rcases List.mem_append.mp hrnb with hf | hrep
      · simpa using (List.mem_filter.mp hf).2
      · exact absurd (List.eq_of_mem_replicate hrep) hrne
    · intro hpred
      exact List.mem_append_left _ (List.mem_filter.mpr ⟨hrold, by simpa using hpred⟩)
  · intro r hrold hrne hbit hrnb
    rcases List.mem_append.mp hrnb with hf | hrep
    · have hpred : r.hash_key >>> (64 - (ld + 1)) = siblingMask hk (ld + 1) := by
        simpa using (List.mem_filter.mp hf).2
      have := siblingMask_mod_two hk (ld + 1)
      omega
    · exact hrne (List.eq_of_mem_replicate hrep)

/-- C2 (witness): splitting `c2witnessBucket` at `ld = 0` with `hk = 0`
(`mask = 1`): the two records with top bit 1 move, the record `{7, 11}`
and the empty slots stay behind. -/
theorem c2_split_redistribution_witness :
    ∃ nb, build_split_bucket c2witnessBucket 0 (0 + 1) = Except.ok nb ∧
      (∀ r ∈ c2witnessBucket, r ≠ emptyRecord →
        (r ∈ nb ↔ r.hash_key >>> (64 - (0 + 1)) = siblingMask 0 (0 + 1))) ∧
      (∀ r ∈ c2witnessBucket, r ≠ emptyRecord →
        (r.hash_key >>> (64 - (0 + 1))) % 2 = 0 → r ∉ nb) :=
  c2_split_redistribution c2witnessBucket 0 0 (by decide) (by decide) (by decide)

/-! ## Directory grow: dup lemmas and C4 -/

theorem dup_length (t : List Nat) : (dup t).length = 2 * t.length := by
  induction t with
  | nil => simp [dup]
  | cons e rest ih => simp [dup, ih]; omega

theorem dup_getD (t : List Nat) (j d : Nat) :
    (dup t).getD j d = t.getD (j / 2) d := by
  induction t generalizing j with
  | nil => simp [dup]
  | cons e rest ih =>
    match j with
    | 0 => simp [dup]
    | 1 => simp [dup]
    | (j + 2) =>
      have h2 : (j + 2) / 2 = j / 2 + 1 := by omega
      show (dup rest).getD j d = (e :: rest).getD ((j + 2) / 2) d
      rw [h2, List.getD_cons_succ, ih]

/-- C4 (confirmed): `grow_if_eq(ld)` (for `ld ≤ gd`) grows the directory
iff `ld = gd`; on growth the global depth becomes exactly `gd + 1` and
the new table satisfies `t'[2i] = t'[2i+1] = t[i]`; for `ld < gd` it
returns the current depth with depth and table unchanged. -/
theorem c4_grow_if_eq (d : Directory) (ld : Nat)
    (hld : ld ≤ d.global_depth) (hlen : d.table.length = 2 ^ d.global_depth) :
    ((grow_if_eq d ld).2.global_depth ≠ d.global_depth ↔ ld = d.global_depth) ∧
    (ld < d.global_depth → grow_if_eq d ld = (d.global_depth, d)) ∧
    (ld = d.global_depth →
      (grow_if_eq d ld).1 = d.global_depth + 1 ∧
      (grow_if_eq d ld).2.global_depth = d.global_depth + 1 ∧
      (grow_if_eq d ld).2.table.length = 2 ^ (d.global_depth + 1) ∧
      ∀ i, i < 2 ^ d.global_depth →
        (grow_if_eq d ld).2.table.getD (2 * i) 0 = d.table.getD i 0 ∧
        (grow_if_eq d ld).2.table.getD (2 * i + 1) 0 = d.table.getD i 0) := by
  by_cases h : d.global_depth > ld
  · rw [grow_if_eq, if_pos h]
    refine ⟨⟨fun hc => absurd rfl hc, fun hc => absurd hc (by omega)⟩,
      fun _ => rfl, fun he => absurd he (by omega)⟩
  · have he : ld = d.global_depth := by omega
    rw [grow_if_eq, if_neg h]
    refine ⟨⟨fun _ => he, fun _ => by show d.global_depth + 1 ≠ d.global_depth; omega⟩,
      fun hc => absurd hc (by omega), fun _ => ?_⟩
    refine ⟨rfl, rfl, ?_, ?_⟩
    · show (dup d.table).length = 2 ^ (d.global_depth + 1)
      rw [dup_length, hlen, Nat.pow_succ]
      omega
    · intro i hi
      constructor
      · show (dup d.table).getD (2 * i) 0 = d.table.getD i 0
        rw [dup_getD]
        congr 1
        omega
      · show (dup d.table).getD (2 * i + 1) 0 = d.table.getD i 0
        rw [dup_getD]
        congr 1
        omega

/-- C4 (witness): growing the initial one-entry directory at `ld = 0`. -/
theorem c4_grow_if_eq_witness :
    ((grow_if_eq ⟨0, [0]⟩ 0).2.global_depth ≠ 0 ↔ (0 : Nat) = 0) ∧
    ((0 : Nat) < 0 → grow_if_eq ⟨0, [0]⟩ 0 = (0, ⟨0, [0]⟩)) ∧
    ((0 : Nat) = 0 →
      (grow_if_eq ⟨0, [0]⟩ 0).1 = 1 ∧
      (grow_if_eq ⟨0, [0]⟩ 0).2.global_depth = 1 ∧
      (grow_if_eq ⟨0, [0]⟩ 0).2.table.length = 2 ^ 1 ∧
      ∀ i, i < 2 ^ 0 →
        (grow_if_eq ⟨0, [0]⟩ 0).2.table.getD (2 * i) 0 = [0].getD i 0 ∧
        (grow_if_eq ⟨0, [0]⟩ 0).2.table.getD (2 * i + 1) 0 = [0].getD i 0) :=
  c4_grow_if_eq ⟨0, [0]⟩ 0 (by decide) (by decide)

/-! ## Directory rewiring: foldl-set lemmas and C3 -/

theorem foldl_set_length (v b : Nat) (idxs : List Nat) :
    ∀ t : List Nat, (idxs.foldl (fun acc i => acc.set (b + i) v) t).length = t.length := by
  induction idxs with
  | nil => intro t; rfl
  | cons x xs ih =>
    intro t
    rw [List.foldl_cons, ih, List.length_set]

theorem foldl_set_range_getD (v b : Nat) :
    ∀ (n : Nat) (t : List Nat) (j : Nat),
      ((List.range n).foldl (fun acc i => acc.set (b + i) v) t).getD j 0 =
        if b ≤ j ∧ j < b + n ∧ j < t.length then v else t.getD j 0 := by
  intro n
  induction n with
  | zero =>
    intro t j
    rw [List.range_zero, List.foldl_nil, if_neg (by omega)]
  | succ n ih =>
    intro t j
    rw [List.range_succ, List.foldl_append, List.foldl_cons, List.foldl_nil]
    rw [set_getD, foldl_set_length, ih]
    by_cases h1 : b + n = j ∧ j < t.length
    · rw [if_pos h1, if_pos (by omega)]
    · rw [if_neg h1]
      by_cases h2 : b ≤ j ∧ j < b + n ∧ j < t.length
      · rw [if_pos h2, if_pos (by omega)]
      · rw [if_neg h2, if_neg (by omega)]

theorem rewireStep_eq (ld gd : Nat) : rewireStep ld gd = 2 ^ (gd - (ld + 1)) := by
  unfold rewireStep
  rw [Nat.shiftLeft_eq, one_mul]

theorem rewireStart_eq (hk ld gd : Nat) (hhk : hk < 2 ^ 64) (hnd : ld + 1 ≤ gd)
    (hgd : gd ≤ 64) :
    rewireStart hk ld gd = (if ld = 0 then 0 else hk >>> (64 - ld)) * 2 ^ (gd - ld) ∧
    (if ld = 0 then 0 else hk >>> (64 - ld)) < 2 ^ ld := by
  have hsplit : (gd : Nat) - ld = (gd - (ld + 1)) + 1 := by omega
  have h2 : (2 : Nat) ^ (gd - ld) = 2 * 2 ^ (gd - (ld + 1)) := by
    rw [hsplit, pow_succ]
    ring
  have hplt : (if ld = 0 then 0 else hk >>> (64 - ld)) < 2 ^ ld := by
    by_cases h0 : ld = 0
    · rw [if_pos h0, h0]
      norm_num
    · rw [if_neg h0, Nat.shiftRight_eq_div_pow]
      apply Nat.div_lt_of_lt_mul
      calc hk < 2 ^ 64 := hhk
        _ = 2 ^ (64 - ld) * 2 ^ ld := by
          rw [← pow_add]
          congr 1
          omega
  refine ⟨?_, hplt⟩
  show ((if ld = 0 then 0 else hk >>> (64 - ld)) <<< (gd - ld))
      - ((if ld = 0 then 0 else hk >>> (64 - ld)) <<< (gd - ld)) % 2 = _
  rw [Nat.shiftLeft_eq]
  have heven : ((if ld = 0 then 0 else hk >>> (64 - ld)) * 2 ^ (gd - ld)) % 2 = 0 := by
    have hx : (if ld = 0 then 0 else hk >>> (64 - ld)) * 2 ^ (gd - ld)
        = 2 * ((if ld = 0 then 0 else hk >>> (64 - ld)) * 2 ^ (gd - (ld + 1))) := by
      rw [h2]
      ring
    rw [hx, Nat.mul_mod_right]
  omega

theorem rewire_getD (t : List Nat) (hk ld gd v j : Nat) :
    (rewire t hk ld gd v).getD j 0 =
      if rewireStart hk ld gd + rewireStep ld gd ≤ j ∧
          j < rewireStart hk ld gd + 2 * rewireStep ld gd ∧ j < t.length
      then v else t.getD j 0 := by
  have hfun : (fun (acc : List Nat) i =>
        acc.set (rewireStart hk ld gd + i + rewireStep ld gd) v)
      = (fun (acc : List Nat) i =>
        acc.set ((rewireStart hk ld gd + rewireStep ld gd) + i) v) := by
    funext acc i
    rw [Nat.add_right_comm]
  unfold rewire
  rw [hfun, foldl_set_range_getD]
  by_cases h : rewireStart hk ld gd + rewireStep ld gd ≤ j ∧
      j < rewireStart hk ld gd + 2 * rewireStep ld gd ∧ j < t.length
  · rw [if_pos (by omega), if_pos h]
  · rw [if_neg (by omega), if_neg h]

/-- C3 (confirmed): after the grow, with `nd = ld + 1 ≤ gd'`,
`step = 2^(gd' - nd)` and
`start = (((ld == 0) ? 0 : hk >> (64 - ld)) << (gd' - ld))` aligned down
to an even index, the rewiring loop sets exactly the directory entries
`start + step .. start + 2*step - 1` to the new segment's index and
leaves every other entry unchanged. -/
theorem c3_split_directory_rewiring (t : List Nat) (hk ld gd newIdx : Nat)
    (hhk : hk < 2 ^ 64) (hnd : ld + 1 ≤ gd) (hgd : gd ≤ 64)
    (hlen : t.length = 2 ^ gd) :
    ∀ j, (rewire t hk ld gd newIdx).getD j 0 =
      if rewireStart hk ld gd + rewireStep ld gd ≤ j ∧
          j < rewireStart hk ld gd + 2 * rewireStep ld gd
      then newIdx else t.getD j 0 := by
  obtain ⟨hstart, hplt⟩ := rewireStart_eq hk ld gd hhk hnd hgd
  have hstep := rewireStep_eq ld gd
  have h2 : (2 : Nat) ^ (gd - ld) = 2 * 2 ^ (gd - (ld + 1)) := by
    have hsplit : (gd : Nat) - ld = (gd - (ld + 1)) + 1 := by omega
    rw [hsplit, pow_succ]
    ring
  have hbound : rewireStart hk ld gd + 2 * rewireStep ld gd ≤ t.length := by
    rw [hlen, hstart, hstep]
    calc (if ld = 0 then 0 else hk >>> (64 - ld)) * 2 ^ (gd - ld)
          + 2 * 2 ^ (gd - (ld + 1))
        = ((if ld = 0 then 0 else hk >>> (64 - ld)) + 1) * 2 ^ (gd - ld) := by
          rw [h2]
          ring
      _ ≤ 2 ^ ld * 2 ^ (gd - ld) := Nat.mul_le_mul_right _ hplt
      _ = 2 ^ gd := by
          rw [← pow_add]
          congr 1
          omega
  intro j
  rw [rewire_getD]
  by_cases h : rewireStart hk ld gd + rewireStep ld gd ≤ j ∧
      j < rewireStart hk ld gd + 2 * rewireStep ld gd
  · rw [if_pos ⟨h.1, h.2, by omega⟩, if_pos h]
  · rw [if_neg (by omega), if_neg h]

/-- C3 (witness): splitting the depth-0 segment of a freshly grown
two-entry directory (`gd' = 1`): `step = 1`, `start = 0`, and exactly
entry 1 is set to the new index. -/
theorem c3_split_directory_rewiring_witness :
    (rewire [0, 0] 0 0 1 1).getD 1 0 =
      if rewireStart 0 0 1 + rewireStep 0 1 ≤ 1 ∧
          1 < rewireStart 0 0 1 + 2 * rewireStep 0 1
      then 1 else [0, 0].getD 1 0 :=
  c3_split_directory_rewiring [0, 0] 0 0 1 1 (by norm_num) (by norm_num)
    (by norm_num) (by norm_num) 1

/-! ## C5 — directory invariant: helper lemmas -/

theorem rewire_length (t : List Nat) (hk ld gd v : Nat) :
    (rewire t hk ld gd v).length = t.length := by
  have hfun : (fun (acc : List Nat) i =>
        acc.set (rewireStart hk ld gd + i + rewireStep ld gd) v)
      = (fun (acc : List Nat) i =>
        acc.set ((rewireStart hk ld gd + rewireStep ld gd) + i) v) := by
    funext acc i
    rw [Nat.add_right_comm]
  unfold rewire
  rw [hfun]
  exact foldl_set_length v _ _ t

theorem div_eq_iff_mul (j L p : Nat) (hL : 0 < L) :
    j / L = p ↔ p * L ≤ j ∧ j < (p + 1) * L := by
  rw [← Nat.le_div_iff_mul_le hL, ← Nat.div_lt_iff_lt_mul hL]
  omega

theorem count_interval (a L : Nat) :
    ∀ n, ((List.range n).filter
      (fun j => decide (a ≤ j ∧ j < a + L))).length = min (a + L) n - min a n := by
  intro n
  induction n with
  | zero => simp
  | succ n ih =>
    rw [List.range_succ, List.filter_append, List.length_append, ih]
    by_cases h : a ≤ n ∧ n < a + L
    · rw [List.filter_cons_of_pos (by simpa using h)]
      simp only [List.filter_nil, List.length_cons, List.length_nil]
      omega
    · rw [List.filter_cons_of_neg (by simpa using h)]
      simp only [List.filter_nil, List.length_nil]
      omega

theorem count_range_of_iff (n a L : Nat) (pred : Nat → Bool)
    (hiff : ∀ j, j < n → (pred j = true ↔ a ≤ j ∧ j < a + L))
    (hbound : a + L ≤ n) :
    ((List.range n).filter pred).length = L := by
  have hcongr : (List.range n).filter pred
      = (List.range n).filter (fun j => decide (a ≤ j ∧ j < a + L)) := by
    apply List.filter_congr
    intro j hj
    have hj' : j < n := List.mem_range.mp hj
    rw [Bool.eq_iff_iff, decide_eq_true_eq]
    exact hiff j hj'
  rw [hcongr, count_interval]
  omega

/-- `splitStep` with its let-bindings expanded. -/
theorem splitStep_eq (s : DirState) (hk : Nat) :
    splitStep s hk =
      ⟨(grow_if_eq ⟨s.gd, s.table⟩
          (s.segDepths.getD (s.table.getD (dirIndex s.gd hk) 0) 0)).2.global_depth,
        rewire
          (grow_if_eq ⟨s.gd, s.table⟩
            (s.segDepths.getD (s.table.getD (dirIndex s.gd hk) 0) 0)).2.table
          hk
          (s.segDepths.getD (s.table.getD (dirIndex s.gd hk) 0) 0)
          (grow_if_eq ⟨s.gd, s.table⟩
            (s.segDepths.getD (s.table.getD (dirIndex s.gd hk) 0) 0)).2.global_depth
          s.segDepths.length,
        (s.segDepths.set (s.table.getD (dirIndex s.gd hk) 0)
          (s.segDepths.getD (s.table.getD (dirIndex s.gd hk) 0) 0 + 1))
          ++ [s.segDepths.getD (s.table.getD (dirIndex s.gd hk) 0) 0 + 1]⟩ := rfl

theorem inv_initial : Inv initialState := by
  refine ⟨rfl, by show (0 : Nat) ≤ 64; omega, by simp [initialState], ?_, ?_⟩
  · intro j hj
    simp only [initialState] at hj ⊢
    norm_num at hj
    subst hj
    simp
  · intro i hi
    simp only [initialState] at hi ⊢
    norm_num at hi
    subst hi
    refine ⟨by simp, 0, by norm_num, ?_⟩
    intro j hj
    norm_num at hj
    subst hj
    simp

theorem splitStep_preserves_inv (s : DirState) (hk : Nat) (hhk : hk < 2 ^ 64)
    (hld63 : splitTargetDepth s hk ≤ 63) (hinv : Inv s) : Inv (splitStep s hk) := by
  obtain ⟨hlen, hgd64, hpos, hrange, hseg⟩ := hinv
  rw [splitStep_eq]
  set d0 := dirIndex s.gd hk with hd0def
  set segIdx := s.table.getD d0 0 with hsegdef
  set ld := s.segDepths.getD segIdx 0 with hlddef
  have hld63' : ld ≤ 63 := hld63
  have hd0lt : d0 < 2 ^ s.gd := by
    rw [hd0def]
    unfold dirIndex
    by_cases h0 : s.gd = 0
    · rw [if_pos h0, h0]
      norm_num
    · rw [if_neg h0, Nat.shiftRight_eq_div_pow]
      apply Nat.div_lt_of_lt_mul
      calc hk < 2 ^ 64 := hhk
        _ = 2 ^ (64 - s.gd) * 2 ^ s.gd := by
            rw [← pow_add]
            congr 1
            omega
  have hsegn : segIdx < s.segDepths.length := by
    rw [hsegdef]
    exact hrange d0 hd0lt
  have hldgd : ld ≤ s.gd := by
    rw [hlddef]
    exact (hseg segIdx hsegn).1
  obtain ⟨-, p, hp, hrun⟩ := hseg segIdx hsegn
  rw [← hlddef] at hrun hp
  set gd' := if s.gd > ld then s.gd else s.gd + 1 with hgdeq
  set T1 := if s.gd > ld then s.table else dup s.table with hT1def
  have hgrow : (grow_if_eq ⟨s.gd, s.table⟩ ld).2 = ⟨gd', T1⟩ := by
    rw [hgdeq, hT1def]
    show (if s.gd > ld then ((s.gd : Nat), (⟨s.gd, s.table⟩ : Directory))
        else (s.gd + 1, ⟨s.gd + 1, dup s.table⟩)).2
      = (⟨if s.gd > ld then s.gd else s.gd + 1,
          if s.gd > ld then s.table else dup s.table⟩ : Directory)
    split_ifs with h
    · rfl
    · rfl
  rw [hgrow]
  set D' := (s.segDepths.set segIdx (ld + 1)) ++ [ld + 1] with hDeq
  show Inv ⟨gd', rewire T1 hk ld gd' s.segDepths.length, D'⟩
  have hA : ld + 1 ≤ gd' := by
    rw [hgdeq]
    split_ifs with h
    · omega
    · omega
  have hggd : s.gd ≤ gd' := by
    rw [hgdeq]
    split_ifs <;> omega
  have hB : gd' ≤ 64 := by
    rw [hgdeq]
    split_ifs <;> omega
  have hT1len : T1.length = 2 ^ gd' := by
    rw [hT1def, hgdeq]
    split_ifs with h
    · exact hlen
    · rw [dup_length, hlen, pow_succ]
      omega
  have hT1get : ∀ j, T1.getD j 0 = s.table.getD (j / 2 ^ (gd' - s.gd)) 0 := by
    intro j
    rw [hT1def, hgdeq]
    split_ifs with h
    · rw [Nat.sub_self, pow_zero, Nat.div_one]
    · rw [dup_getD]
      congr 1
      have h1 : s.gd + 1 - s.gd = 1 := by omega
      rw [h1, pow_one]
  have hjdivlt : ∀ j, j < 2 ^ gd' → j / 2 ^ (gd' - s.gd) < 2 ^ s.gd := by
    intro j hj
    apply Nat.div_lt_of_lt_mul
    calc j < 2 ^ gd' := hj
      _ = 2 ^ (gd' - s.gd) * 2 ^ s.gd := by
          rw [← pow_add]
          congr 1
          omega
  have hT1range : ∀ j, j < 2 ^ gd' → T1.getD j 0 < s.segDepths.length := by
    intro j hj
    rw [hT1get]
    exact hrange _ (hjdivlt j hj)
  have hrunT1 : ∀ i q ldi, ldi ≤ s.gd →
      (∀ j, j < 2 ^ s.gd → (s.table.getD j 0 = i ↔ j / 2 ^ (s.gd - ldi) = q)) →
      ∀ j, j < 2 ^ gd' → (T1.getD j 0 = i ↔ j / 2 ^ (gd' - ldi) = q) := by
    intro i q ldi hldi hq j hj
    rw [hT1get, hq _ (hjdivlt j hj), Nat.div_div_eq_div_mul, ← pow_add]
    have he : gd' - s.gd + (s.gd - ldi) = gd' - ldi := by omega
    rw [he]
  have hrunT1seg : ∀ j, j < 2 ^ gd' → (T1.getD j 0 = segIdx ↔ j / 2 ^ (gd' - ld) = p) :=
    hrunT1 segIdx p ld hldgd hrun
  set step := rewireStep ld gd' with hstepdef
  have hstepval : step = 2 ^ (gd' - (ld + 1)) := by
    rw [hstepdef]
    exact rewireStep_eq ld gd'
  have hstep_pos : 0 < step := by
    rw [hstepval]
    exact pow_pos (by norm_num) _
  have hL2 : 2 ^ (gd' - ld) = 2 * step := by
    rw [hstepval]
    have he : gd' - ld = (gd' - (ld + 1)) + 1 := by omega
    rw [he, pow_succ]
    ring
  have hstart : rewireStart hk ld gd' = p * 2 ^ (gd' - ld) := by
    obtain ⟨h1, -⟩ := rewireStart_eq hk ld gd' hhk hA hB
    rw [h1]
    congr 1
    by_cases h0 : ld = 0
    · rw [if_pos h0]
      rw [h0] at hp
      norm_num at hp
      omega
    · rw [if_neg h0]
      have hgd0 : s.gd ≠ 0 := by omega
      have hpe : d0 / 2 ^ (s.gd - ld) = p := (hrun d0 hd0lt).mp hsegdef.symm
      rw [← hpe, hd0def]
      unfold dirIndex
      rw [if_neg hgd0, Nat.shiftRight_eq_div_pow, Nat.shiftRight_eq_div_pow,
        Nat.div_div_eq_div_mul, ← pow_add]
      have he : 64 - s.gd + (s.gd - ld) = 64 - ld := by omega
      rw [he]
  set X := p * step with hXdef
  have hstart2 : rewireStart hk ld gd' = 2 * X := by
    rw [hstart, hL2, hXdef]
    ring
  have he1 : (2 * p + 1) * step = 2 * X + step := by
    rw [hXdef]
    ring
  have he2 : (2 * p + 1 + 1) * step = 2 * X + 2 * step := by
    rw [hXdef]
    ring
  have he3 : (2 * p) * step = 2 * X := by
    rw [hXdef]
    ring
  have he5 : p * 2 ^ (gd' - ld) = 2 * X := by
    rw [hL2, hXdef]
    ring
  have he6 : (p + 1) * 2 ^ (gd' - ld) = 2 * X + 2 * step := by
    rw [hL2, hXdef]
    ring
  have hdiv2p1 : ∀ j, j / step = 2 * p + 1 ↔ 2 * X + step ≤ j ∧ j < 2 * X + 2 * step := by
    intro j
    rw [div_eq_iff_mul j step (2 * p + 1) hstep_pos]
    omega
  have hdiv2p : ∀ j, j / step = 2 * p ↔ 2 * X ≤ j ∧ j < 2 * X + step := by
    intro j
    rw [div_eq_iff_mul j step (2 * p) hstep_pos]
    have he4 : (2 * p + 1) * step = 2 * X + step := he1
    omega
  have hdiv_L : ∀ j, j / 2 ^ (gd' - ld) = p ↔ 2 * X ≤ j ∧ j < 2 * X + 2 * step := by
    intro j
    rw [div_eq_iff_mul j _ p (by rw [hL2]; omega)]
    omega
  have hR : ∀ j, (rewire T1 hk ld gd' s.segDepths.length).getD j 0
      = if 2 * X + step ≤ j ∧ j < 2 * X + 2 * step ∧ j < 2 ^ gd'
        then s.segDepths.length else T1.getD j 0 := by
    intro j
    rw [rewire_getD, hT1len]
    have hc : (rewireStart hk ld gd' + rewireStep ld gd' ≤ j ∧
        j < rewireStart hk ld gd' + 2 * rewireStep ld gd' ∧ j < 2 ^ gd')
        ↔ (2 * X + step ≤ j ∧ j < 2 * X + 2 * step ∧ j < 2 ^ gd') := by
      rw [← hstepdef, hstart2]
    rw [if_congr hc rfl rfl]
  have hD'len : D'.length = s.segDepths.length + 1 := by
    rw [hDeq, List.length_append, List.length_set, List.length_singleton]
  have hD'lt : ∀ i, i < s.segDepths.length →
      D'.getD i 0 = if segIdx = i then ld + 1 else s.segDepths.getD i 0 := by
    intro i hi
    rw [hDeq, List.getD_append _ _ 0 i (by rw [List.length_set]; exact hi), set_getD]
    by_cases h2 : segIdx = i
    · rw [if_pos ⟨h2, hi⟩, if_pos h2]
    · rw [if_neg (by rintro ⟨ha, -⟩; exact h2 ha), if_neg h2]
  have hD'new : D'.getD s.segDepths.length 0 = ld + 1 := by
    rw [hDeq, List.getD_append_right _ _ 0 _ (by simp)]
    rw [List.length_set, Nat.sub_self, List.getD_cons_zero]
  unfold Inv
  dsimp only
  refine ⟨?_, hB, ?_, ?_, ?_⟩
  · rw [rewire_length, hT1len]
  · rw [hD'len]
    omega
  · intro j hj
    rw [hR j, hD'len]
    split_ifs with h
    · omega
    · have := hT1range j hj
      omega
  · intro i hi
    rw [hD'len] at hi
    by_cases hin : i = s.segDepths.length
    · subst hin
      rw [hD'new]
      refine ⟨hA, 2 * p + 1, ?_, ?_⟩
      · have hps : 2 ^ (ld + 1) = 2 * 2 ^ ld := by
          rw [pow_succ]
          ring
        omega
      · intro j hj
        rw [hR j, ← hstepval]
        by_cases hc : 2 * X + step ≤ j ∧ j < 2 * X + 2 * step ∧ j < 2 ^ gd'
        · rw [if_pos hc]
          constructor
          · intro _
            exact (hdiv2p1 j).mpr ⟨hc.1, hc.2.1⟩
          · intro _
            rfl
        · rw [if_neg hc]
          constructor
          · intro h
            exact absurd h (by have := hT1range j hj; omega)
          · intro h
            obtain ⟨h1, h2⟩ := (hdiv2p1 j).mp h
            exact absurd ⟨h1, h2, hj⟩ hc
    · have hi' : i < s.segDepths.length := by omega
      rw [hD'lt i hi']
      by_cases hiseg : segIdx = i
      · subst hiseg
        rw [if_pos rfl]
        refine ⟨hA, 2 * p, ?_, ?_⟩
        · have hps : 2 ^ (ld + 1) = 2 * 2 ^ ld := by
            rw [pow_succ]
            ring
          omega
        · intro j hj
          rw [hR j, ← hstepval]
          by_cases hc : 2 * X + step ≤ j ∧ j < 2 * X + 2 * step ∧ j < 2 ^ gd'
          · rw [if_pos hc]
            constructor
            · intro h
              exact absurd h (by omega)
            · intro h
              exact absurd ((hdiv2p j).mp h).2 (by omega)
          · rw [if_neg hc]
            rw [hrunT1seg j hj, hdiv_L j, hdiv2p j]
            constructor
            · rintro ⟨h1, h2⟩
              exact ⟨h1, by omega⟩
            · rintro ⟨h1, h2⟩
              exact ⟨h1, by omega⟩
      · rw [if_neg hiseg]
        obtain ⟨hldi, q, hq, hrunq⟩ := hseg i hi'
        refine ⟨le_trans hldi hggd, q, hq, ?_⟩
        intro j hj
        rw [hR j]
        have hrunT1i := hrunT1 i q (s.segDepths.getD i 0) hldi hrunq
        by_cases hc : 2 * X + step ≤ j ∧ j < 2 * X + 2 * step ∧ j < 2 ^ gd'
        · rw [if_pos hc]
          constructor
          · intro h
            exact absurd h (by omega)
          · intro h
            have h1 : T1.getD j 0 = i := (hrunT1i j hj).mpr h
            have h2 : T1.getD j 0 = segIdx := by
              rw [hrunT1seg j hj, hdiv_L j]
              exact ⟨by omega, by omega⟩
            rw [h1] at h2
            exact absurd h2.symm hiseg
        · rw [if_neg hc]
          exact hrunT1i j hj

theorem reachable_inv (s : DirState) (h : Reachable s) : Inv s := by
  induction h with
  | init => exact inv_initial
  | split s hk hhk hld _ ih => exact splitStep_preserves_inv s hk hhk hld ih

/-- C5 (confirmed): in every directory state reachable from a fresh
database by put operations (whose directory effects are exactly the
splits), every allocated segment `i` of local depth `ld` is pointed to by
exactly `2^(gd - ld)` directory entries, and those entries form one
contiguous run whose start index is a multiple of its length. -/
theorem c5_directory_invariant (s : DirState) (h : Reachable s) :
    ∀ i, i < s.segDepths.length →
      ∃ start,
        start % 2 ^ (s.gd - s.segDepths.getD i 0) = 0 ∧
        (∀ j, j < 2 ^ s.gd →
          (s.table.getD j 0 = i ↔
            start ≤ j ∧ j < start + 2 ^ (s.gd - s.segDepths.getD i 0))) ∧
        ((List.range (2 ^ s.gd)).filter (fun j => s.table.getD j 0 == i)).length
          = 2 ^ (s.gd - s.segDepths.getD i 0) := by
  obtain ⟨hlen, hgd, hpos, hrange, hseg⟩ := reachable_inv s h
  intro i hi
  obtain ⟨hldi, p, hp, hrun⟩ := hseg i hi
  set L := 2 ^ (s.gd - s.segDepths.getD i 0) with hLdef
  have hLpos : 0 < L := pow_pos (by norm_num) _
  have hmul : (p + 1) * L = p * L + L := by ring
  have hbound : p * L + L ≤ 2 ^ s.gd := by
    have h1 : (p + 1) * L ≤ 2 ^ (s.segDepths.getD i 0) * L := Nat.mul_le_mul_right _ hp
    have h2 : 2 ^ (s.segDepths.getD i 0) * L = 2 ^ s.gd := by
      rw [hLdef, ← pow_add]
      congr 1
      omega
    omega
  refine ⟨p * L, Nat.mul_mod_left p L, ?_, ?_⟩
  · intro j hj
    rw [hrun j hj, div_eq_iff_mul j L p hLpos]
    omega
  · refine count_range_of_iff (2 ^ s.gd) (p * L) L _ ?_ hbound
    intro j hj
    rw [beq_iff_eq, hrun j hj, div_eq_iff_mul j L p hLpos]
    omega

/-- C5 (witness): the freshly initialized database: segment 0 has depth
0 and owns the single directory entry. -/
theorem c5_directory_invariant_witness :
    ∃ start,
      start % 2 ^ (initialState.gd - initialState.segDepths.getD 0 0) = 0 ∧
      (∀ j, j < 2 ^ initialState.gd →
        (initialState.table.getD j 0 = 0 ↔
          start ≤ j ∧ j < start + 2 ^ (initialState.gd - initialState.segDepths.getD 0 0))) ∧
      ((List.range (2 ^ initialState.gd)).filter
        (fun j => initialState.table.getD j 0 == 0)).length
        = 2 ^ (initialState.gd - initialState.segDepths.getD 0 0) :=
  c5_directory_invariant initialState Reachable.init 0 (by decide)

/-! ## C8 — allocation write ordering -/

/-- C8 (code evaluated at the failing input): in
`BasicSegmenter::allocate_segment` and `allocate_with_buckets` the
segment body is written and flushed (positions 0 and 1) strictly before
the `num_segments` counter is incremented (position 2); but in
`LockedSegmenter::allocate_segment` and `allocate_with_buckets` the
counter increment and the header write/flush (positions 0–2) happen
strictly before the body is written (position 3), contradicting the
claim, the trait documentation on `Segmenter::allocate_segment`, and the
spec's ordering rule. -/
theorem c8_allocation_order_traces :
    (eventIndex basicAllocateSegmentTrace AllocEvent.bodyFlush = some 1 ∧
      eventIndex basicAllocateSegmentTrace AllocEvent.counterInc = some 2 ∧
      eventIndex basicAllocateWithBucketsTrace AllocEvent.bodyFlush = some 1 ∧
      eventIndex basicAllocateWithBucketsTrace AllocEvent.counterInc = some 2) ∧
    (eventIndex lockedAllocateSegmentTrace AllocEvent.counterInc = some 0 ∧
      eventIndex lockedAllocateSegmentTrace AllocEvent.headerWrite = some 1 ∧
      eventIndex lockedAllocateSegmentTrace AllocEvent.bodyWrite = some 3 ∧
      eventIndex lockedAllocateWithBucketsTrace AllocEvent.counterInc = some 0 ∧
      eventIndex lockedAllocateWithBucketsTrace AllocEvent.bodyWrite = some 3) := by
  exact ⟨⟨rfl, rfl, rfl, rfl⟩, ⟨rfl, rfl, rfl, rfl, rfl⟩⟩

/-! ## C9 — I/O error propagation on get -/

/-- C9 (counterexample): an I/O failure of the directory lookup makes
`MehDB::get` return `None` — exactly the value it returns for an absent
key on a healthy read path — so the error is not surfaced and is
indistinguishable from "not found". -/
theorem c9_get_counterexample :
    get (Except.error EngineError.ioError)
        (fun _ => Except.ok 0) (fun _ => Except.ok emptyBucket) 5 = none ∧
    get (Except.ok 0)
        (fun _ => Except.ok 0) (fun _ => Except.ok emptyBucket) 5 = none := by
  exact ⟨rfl, rfl⟩

/-- C9 (amended): every error of the three underlying steps propagates
out of `bucket_for_key` unchanged, but `MehDB::get` catches it and
converts it into `None`, the same result as an absent key; no error is
ever surfaced by `get`. -/
theorem c9_get_swallows_errors (dirRes : Except EngineError Nat)
    (segRes : Nat → Except EngineError Nat)
    (bucketRes : Nat → Except EngineError (List Record)) (hk : Nat)
    (e : EngineError)
    (herr : bucket_for_key dirRes segRes bucketRes = Except.error e) :
    (bucket_for_key (Except.error e) segRes bucketRes = Except.error e) ∧
    get dirRes segRes bucketRes hk = none := by
  constructor
  · rfl
  · unfold get
    rw [herr]

/-- C9 (witness): a directory read failing with an I/O error makes the
pipeline error and `get` answer `None`. -/
theorem c9_get_swallows_errors_witness :
    (bucket_for_key (Except.error EngineError.ioError)
        (fun _ => Except.ok 0) (fun _ => Except.ok emptyBucket)
      = Except.error EngineError.ioError) ∧
    get (Except.error EngineError.ioError)
        (fun _ => Except.ok 0) (fun _ => Except.ok emptyBucket) 7 = none :=
  c9_get_swallows_errors (Except.error EngineError.ioError)
    (fun _ => Except.ok 0) (fun _ => Except.ok emptyBucket) 7
    EngineError.ioError rfl

end MehDB
